import Mathlib

/-!
Verification development for the vibesrgb audio→RGB pipeline (src/main.rs).

The Rust source works over `f32`; the embedding idealises `f32` arithmetic as
exact rational arithmetic (`ℚ`) for samples, frequencies and range scaling, and
as real/complex arithmetic (`ℝ`, `ℂ`) for the spectrum and magnitudes.  Machine
casts `as usize` on non-negative values are modelled by `Nat.floor`, and
`f32::round` (round half away from zero, applied here only to non-negative
values) by `fun q => ⌊q + 1/2⌋`.
-/

namespace Vibes

/-- Rust's half-open `Range<usize>` `start..stop` (the source field `end` is a
Lean keyword, so it is called `stop` here). -/
structure NRange where
  start : ℕ
  stop : ℕ
deriving DecidableEq, Repr

/-- `impl Scalable<f32> for Range<usize>`: both endpoints are multiplied by the
scalar and truncated back to `usize` (`.trunc() as usize`, which is `Nat.floor`
on non-negative values). -/
def NRange.scale (r : NRange) (scalar : ℚ) : NRange :=
  ⟨⌊(r.start : ℚ) * scalar⌋₊, ⌊(r.stop : ℚ) * scalar⌋₊⟩

/-- Membership test of Rust's `Range::contains`: `start <= t && t < stop`. -/
def NRange.containsN (r : NRange) (t : ℕ) : Bool :=
  decide (r.start ≤ t) && decide (t < r.stop)

/-- `fn average(slice: &[f32]) -> f32`: sum of the channel values divided by
their count, `0.0` for an empty slice. -/
def average (slice : List ℚ) : ℚ :=
  let sum := slice.sum
  let count := slice.length
  if count = 0 then 0 else sum / (count : ℚ)

/-- `fn calculate_fft(data: &[f32], len: usize) -> Vec<Complex<f32>>`: the
samples become complex values, rustfft's forward transform is applied (modelled
as the textbook DFT `X_k = Σ_j x_j · exp (-2πi·j·k/N)` over the buffer length,
which at every call site equals `len`), and the buffer is truncated to the
non-redundant half `len / 2`. -/
noncomputable def calculate_fft (data : List ℚ) (len : ℕ) : List ℂ :=
  let buffer : List ℂ := data.map (fun (sample : ℚ) => ((sample : ℝ) : ℂ))
  let transformed : List ℂ := (List.range buffer.length).map (fun k =>
    ((List.range buffer.length).map (fun j =>
      buffer.getD j 0 *
        Complex.exp (-2 * Real.pi * Complex.I * ((j * k : ℕ) : ℂ) / (buffer.length : ℂ)))).sum)
  transformed.take (len / 2)

/-- `f32::round` on a non-negative value: round half away from zero. -/
def rroundQ (q : ℚ) : ℚ := (⌊q + 1/2⌋ : ℤ)

/-- One `while` iteration body plus loop test of `Binning::log_bins`, run on
explicit fuel so that the (for `base ≤ 1` genuinely non-terminating) source
loop has a total model.  For `2 ≤ base` the fuel `⌊max_freq⌋₊ + 1` used by
`log_bins` is proved sufficient below.  The second component is the final value
of `current_freq`.  The source computes the next boundary as
`base.powf((current_freq.log(base) + 1.0) / base_log)` with
`base_log = base.log(base) = 1`, which is exactly `current_freq * base`; the
model uses that closed form, then rounds and clamps to `max_freq` as the source
does. -/
def logBinsAux (base max_freq : ℚ) : ℕ → ℚ → List NRange × ℚ
  | 0, current_freq => ([], current_freq)
  | fuel + 1, current_freq =>
    if current_freq < max_freq then
      let next_freq := min (rroundQ (current_freq * base)) max_freq
      let rest := logBinsAux base max_freq fuel next_freq
      (⟨⌊current_freq⌋₊, ⌊next_freq⌋₊⟩ :: rest.1, rest.2)
    else ([], current_freq)

/-- `fn log_bins(&self, max_freq: f32, base: f32) -> Vec<Range<usize>>`:
starting from `current_freq = 1.0`, repeatedly push
`(current_freq as usize)..(next_freq as usize)` until `current_freq` reaches
`max_freq`. -/
def log_bins (max_freq base : ℚ) : List NRange :=
  (logBinsAux base max_freq (⌊max_freq⌋₊ + 1) 1).1

/-- The Hertz ranges of the `Binning::Linear` arm:
`(0..bins).map(|bin| (bin..(bin + 1)).scale(max_freq / bins))`. -/
def linearRanges (bins : ℕ) (max_freq : ℚ) : List NRange :=
  (List.range bins).map (fun bin => NRange.scale ⟨bin, bin + 1⟩ (max_freq / (bins : ℚ)))

/-- The Rust slice `fft[range]` (total model by `drop`/`take`; the bounds
`start ≤ stop ≤ fft.length` under which the source indexing does not panic are
proved below for the ranges the binner produces). -/
def listSlice (fft : List ℂ) (r : NRange) : List ℂ :=
  (fft.drop r.start).take (r.stop - r.start)

/-- The aggregation step shared by all three `Binning::bin` arms: scale the
Hertz range to a spectrum-index range, sum the complex values inside it and
take the norm of the sum. -/
noncomputable def aggregate (fft : List ℂ) (scale : ℚ) (range : NRange) : NRange × ℝ :=
  (range, Complex.abs (listSlice fft (range.scale scale)).sum)

/-- `enum Binning { Linear(usize), Logarithmic(usize), Ranges(Vec<Range<usize>>) }`. -/
inductive Binning where
  | linear : ℕ → Binning
  | logarithmic : ℕ → Binning
  | ranges : List NRange → Binning

/-- `fn bin(&self, fft: &Vec<Complex<f32>>, sample_rate: f32)
-> Vec<(Range<usize>, f32)>`. -/
noncomputable def Binning.bin (self : Binning) (fft : List ℂ) (sample_rate : ℚ) :
    List (NRange × ℝ) :=
  let len := fft.length
  let max_freq := sample_rate / 2
  let scale := (len : ℚ) / max_freq
  match self with
  | Binning.linear bins => (linearRanges bins max_freq).map (aggregate fft scale)
  | Binning.logarithmic log => (log_bins max_freq (log : ℚ)).map (aggregate fft scale)
  | Binning.ranges rs => rs.map (aggregate fft scale)

/-- Modelled from the spec: the alternative aggregation the spec's regression
test contrasts with the source (`§8`: "magnitude-sum-then-sum"), summing the
individual norms of the complex values in each scaled range instead of taking
the norm of their sum.  Only the aggregate differs from `Binning.bin`. -/
noncomputable def binSumOfNorms (self : Binning) (fft : List ℂ) (sample_rate : ℚ) :
    List (NRange × ℝ) :=
  let len := fft.length
  let max_freq := sample_rate / 2
  let scale := (len : ℚ) / max_freq
  let agg : NRange → NRange × ℝ := fun range =>
    (range, ((listSlice fft (range.scale scale)).map Complex.abs).sum)
  match self with
  | Binning.linear bins => (linearRanges bins max_freq).map agg
  | Binning.logarithmic log => (log_bins max_freq (log : ℚ)).map agg
  | Binning.ranges rs => rs.map agg

/-- `openrgb::data::Color`, an RGB triple. -/
structure Color where
  r : ℕ
  g : ℕ
  b : ℕ
deriving DecidableEq, Repr

/-- `Color::new(r, g, b)`. -/
def Color.new (r g b : ℕ) : Color := ⟨r, g, b⟩

/-- The per-LED body of `paint`'s closure.  A placed LED looks up the first bin
whose range contains `(x * sample_rate / 2.0) as usize`; the source `unwrap`s a
lookup miss (a panic), modelled as `none`. -/
noncomputable def paintLed (bins : List (NRange × ℝ)) (sample_rate : ℚ)
    (led : Option (ℚ × ℚ)) : Option Color :=
  match led with
  | some (x, _y) =>
    (bins.find? (fun b => b.1.containsN ⌊x * sample_rate / 2⌋₊)).map
      (fun bin => if 1 < bin.2 then Color.new 255 0 0 else Color.new 0 0 0)
  | none => some (Color.new 0 0 0)

/-- `fn paint(leds, bins, sample_rate) -> Vec<Color>`: one color per LED slot,
in order; `none` if some placed LED's bin lookup misses (the source panic). -/
noncomputable def paint (leds : List (Option (ℚ × ℚ))) (bins : List (NRange × ℝ))
    (sample_rate : ℚ) : Option (List Color) :=
  match leds with
  | [] => some []
  | led :: rest => do
    let c ← paintLed bins sample_rate led
    let cs ← paint rest bins sample_rate
    pure (c :: cs)

/-- The shared-buffer manipulation of one tick of the analysis loop in `main`:
if the buffer holds at least `window_size_samples` samples, the tail slice
`&window[window.len() - window_size_samples..]` becomes the Window and the
whole buffer is cleared; otherwise nothing is produced and the buffer is left
unchanged.  First component: the Window drained (if any); second component: the
buffer contents after the tick. -/
def drainStep (buf : List ℚ) (window_size_samples : ℕ) : Option (List ℚ) × List ℚ :=
  if window_size_samples ≤ buf.length then
    (some (buf.drop (buf.length - window_size_samples)), [])
  else
    (none, buf)

/-- Integer shadow of `logBinsAux`: when `max_freq` is a natural number the
whole `current_freq` trajectory consists of natural numbers and the rounding in
the step degenerates to `min (c * base) max_freq`; proved equal to
`logBinsAux` under the casts below. -/
def logBinsAuxNat (base max_freq : ℕ) : ℕ → ℕ → List NRange × ℕ
  | 0, current_freq => ([], current_freq)
  | fuel + 1, current_freq =>
    if current_freq < max_freq then
      let next_freq := min (current_freq * base) max_freq
      let rest := logBinsAuxNat base max_freq fuel next_freq
      (⟨current_freq, next_freq⟩ :: rest.1, rest.2)
    else ([], current_freq)

/-- Adjacent ranges in the list are contiguous: each range's `stop` equals the
next range's `start`. -/
def ContigB : List NRange → Bool
  | a :: b :: rest => decide (a.stop = b.start) && ContigB (b :: rest)
  | _ => true

/-! ### General helper lemmas -/

lemma natFloor_eval (q : ℚ) (n : ℕ) (h : ⌊q⌋ = (n : ℤ)) : ⌊q⌋₊ = n := by
  rw [← Int.floor_toNat, h, Int.toNat_natCast]

lemma contigB_iff (l : List NRange) :
    ContigB l = true ↔ ∀ (k : ℕ) (a b : NRange), l[k]? = some a → l[k + 1]? = some b →
      a.stop = b.start := by
  induction l with
  | nil => simp [ContigB]
  | cons a t ih =>
    cases t with
    | nil =>
      simp only [ContigB, true_iff]
      intro k x y hx hy
      rcases k with _ | k <;> simp at hy
    | cons b t' =>
      rw [ContigB]
      simp only [Bool.and_eq_true, decide_eq_true_eq, ih]
      constructor
      · rintro ⟨hab, hrest⟩ k x y hx hy
        rcases k with _ | k
        · simp only [List.getElem?_cons_zero, Option.some.injEq] at hx
          simp only [List.getElem?_cons_succ, List.getElem?_cons_zero,
            Option.some.injEq] at hy
          subst hx; subst hy; exact hab
        · rw [List.getElem?_cons_succ] at hx
          rw [List.getElem?_cons_succ] at hy
          exact hrest k x y hx hy
      · intro h
        refine ⟨h 0 a b (by simp) (by simp), fun k x y hx hy => ?_⟩
        exact h (k + 1) x y (by simpa using hx) (by simpa using hy)

lemma find?_eq_some_split {α : Type} (p : α → Bool) (l : List α) (b : α)
    (h : l.find? p = some b) :
    ∃ l₁ l₂, l = l₁ ++ b :: l₂ ∧ p b = true ∧ ∀ a ∈ l₁, p a = false := by
  induction l with
  | nil => simp at h
  | cons a t ih =>
    rw [List.find?] at h
    cases hp : p a with
    | true =>
      rw [hp] at h
      simp only [Option.some.injEq] at h
      subst h
      exact ⟨[], t, rfl, hp, by simp⟩
    | false =>
      rw [hp] at h
      obtain ⟨l₁, l₂, hl, hb, hall⟩ := ih h
      exact ⟨a :: l₁, l₂, by rw [hl, List.cons_append], hb, by
        intro x hx
        rcases List.mem_cons.mp hx with rfl | hx
        · exact hp
        · exact hall x hx⟩

lemma natFloor_eval' (q : ℚ) (n : ℕ) (h1 : (n : ℚ) ≤ q) (h2 : q < (n : ℚ) + 1) :
    ⌊q⌋₊ = n :=
  (Nat.floor_eq_iff (le_trans (Nat.cast_nonneg n) h1)).mpr ⟨h1, h2⟩

/-! ### The Hertz ranges of the Linear strategy -/

lemma linearRanges_length (n : ℕ) (mf : ℚ) : (linearRanges n mf).length = n := by
  simp [linearRanges]

lemma linearRanges_getElem? (n : ℕ) (mf : ℚ) (k : ℕ) (hk : k < n) :
    (linearRanges n mf)[k]? =
      some ⟨⌊(k : ℚ) * (mf / n)⌋₊, ⌊((k : ℚ) + 1) * (mf / n)⌋₊⟩ := by
  rw [linearRanges, List.getElem?_map, List.getElem?_range hk]
  rw [Option.map_some', NRange.scale]
  congr 2
  push_cast
  ring

lemma linearRanges_mem (n : ℕ) (mf : ℚ) (r : NRange) :
    r ∈ linearRanges n mf ↔
      ∃ k < n, r = ⟨⌊(k : ℚ) * (mf / n)⌋₊, ⌊((k : ℚ) + 1) * (mf / n)⌋₊⟩ := by
  rw [linearRanges, List.mem_map]
  constructor
  · rintro ⟨k, hk, rfl⟩
    refine ⟨k, List.mem_range.mp hk, ?_⟩
    rw [NRange.scale]
    congr 2
    push_cast
    ring
  · rintro ⟨k, hk, rfl⟩
    refine ⟨k, List.mem_range.mpr hk, ?_⟩
    rw [NRange.scale]
    congr 2
    push_cast
    ring

lemma linearRanges_cover (n : ℕ) (hn : 1 ≤ n) (mf : ℚ) (_hmf : 0 < mf)
    (t : ℕ) (ht : t < ⌊mf⌋₊) :
    ∃ r ∈ linearRanges n mf, r.start ≤ t ∧ t < r.stop := by
  have hn0 : (n : ℚ) ≠ 0 := Nat.cast_ne_zero.mpr (by omega)
  have hcast : ((n - 1 : ℕ) : ℚ) + 1 = (n : ℚ) := by
    rw [Nat.cast_sub hn]
    push_cast
    ring
  have hnw : ((n : ℚ)) * (mf / n) = mf := by field_simp
  have hex : ∃ k : ℕ, t < ⌊((k : ℚ) + 1) * (mf / n)⌋₊ := by
    refine ⟨n - 1, ?_⟩
    rw [hcast, hnw]
    exact ht
  have hk₀ : t < ⌊((Nat.find hex : ℚ) + 1) * (mf / n)⌋₊ := Nat.find_spec hex
  have hk₀n : Nat.find hex < n := by
    have h1 : Nat.find hex ≤ n - 1 := Nat.find_min' hex (by rw [hcast, hnw]; exact ht)
    omega
  refine ⟨⟨⌊(Nat.find hex : ℚ) * (mf / n)⌋₊, ⌊((Nat.find hex : ℚ) + 1) * (mf / n)⌋₊⟩,
    (linearRanges_mem n mf _).mpr ⟨Nat.find hex, hk₀n, rfl⟩, ?_, hk₀⟩
  show ⌊(Nat.find hex : ℚ) * (mf / n)⌋₊ ≤ t
  rcases Nat.eq_zero_or_pos (Nat.find hex) with h0 | hpos
  · rw [h0]
    simp
  · have hmin : ¬ t < ⌊(((Nat.find hex - 1 : ℕ) : ℚ) + 1) * (mf / n)⌋₊ :=
      Nat.find_min hex (by omega)
    have hc : ((Nat.find hex - 1 : ℕ) : ℚ) + 1 = (Nat.find hex : ℚ) := by
      rw [Nat.cast_sub hpos]
      push_cast
      ring
    rw [hc] at hmin
    omega

lemma linearRanges_widths (n : ℕ) (hn : 1 ≤ n) (mf : ℚ) (hmf : 0 < mf) :
    ∀ r ∈ linearRanges n mf, r.start ≤ r.stop ∧
      mf / n - 1 < (r.stop : ℚ) - r.start ∧ (r.stop : ℚ) - r.start < mf / n + 1 := by
  intro r hr
  obtain ⟨k, hk, rfl⟩ := (linearRanges_mem n mf r).mp hr
  have hw : 0 < mf / n := by positivity
  have hk0 : (0 : ℚ) ≤ (k : ℚ) * (mf / n) := by positivity
  have hk1 : (0 : ℚ) ≤ ((k : ℚ) + 1) * (mf / n) := by positivity
  have hle : (k : ℚ) * (mf / n) ≤ ((k : ℚ) + 1) * (mf / n) := by nlinarith
  have f1 : (⌊(k : ℚ) * (mf / n)⌋₊ : ℚ) ≤ (k : ℚ) * (mf / n) := Nat.floor_le hk0
  have f2 : (⌊((k : ℚ) + 1) * (mf / n)⌋₊ : ℚ) ≤ ((k : ℚ) + 1) * (mf / n) :=
    Nat.floor_le hk1
  have f3 : (k : ℚ) * (mf / n) < ⌊(k : ℚ) * (mf / n)⌋₊ + 1 := Nat.lt_floor_add_one _
  have f4 : ((k : ℚ) + 1) * (mf / n) < ⌊((k : ℚ) + 1) * (mf / n)⌋₊ + 1 :=
    Nat.lt_floor_add_one _
  refine ⟨Nat.floor_le_floor hle, ?_, ?_⟩ <;> simp only [] <;> nlinarith

/-- Claim C1 (corrected): `Binning::Linear(n).bin` produces exactly `n`
contiguous integer-endpoint Hertz ranges, the `k`-th being
`⌊k·max_freq/n⌋ .. ⌊(k+1)·max_freq/n⌋`; the first starts at `0` and the last
ends at `⌊max_freq⌋`, so together they cover exactly the integer frequencies
in `[0, ⌊max_freq⌋)`; each range's width differs from `max_freq/n` by less
than `1` (rather than always equalling `max_freq/n`, which fails whenever
`max_freq/n` is not an integer — see the counterexample). -/
theorem C1_linear_ranges (n : ℕ) (hn : 1 ≤ n) (mf : ℚ) (hmf : 0 < mf) :
    (linearRanges n mf).length = n ∧
    (∀ fft : List ℂ, (Binning.bin (Binning.linear n) fft (2 * mf)).map Prod.fst =
      linearRanges n mf) ∧
    (∀ k, k < n → (linearRanges n mf)[k]? =
      some ⟨⌊(k : ℚ) * (mf / n)⌋₊, ⌊((k : ℚ) + 1) * (mf / n)⌋₊⟩) ∧
    ContigB (linearRanges n mf) = true ∧
    ((linearRanges n mf)[0]?).map NRange.start = some 0 ∧
    (linearRanges n mf).getLast?.map NRange.stop = some ⌊mf⌋₊ ∧
    (∀ t : ℕ, t < ⌊mf⌋₊ → ∃ r ∈ linearRanges n mf, r.start ≤ t ∧ t < r.stop) ∧
    (∀ t : ℕ, (∃ r ∈ linearRanges n mf, r.start ≤ t ∧ t < r.stop) → t < ⌊mf⌋₊) ∧
    (∀ r ∈ linearRanges n mf, r.start ≤ r.stop ∧
      mf / n - 1 < (r.stop : ℚ) - r.start ∧ (r.stop : ℚ) - r.start < mf / n + 1) := by
  have hn0 : (n : ℚ) ≠ 0 := Nat.cast_ne_zero.mpr (by omega)
  have hnw : ((n : ℚ)) * (mf / n) = mf := by field_simp
  refine ⟨linearRanges_length n mf, ?_, fun k hk => linearRanges_getElem? n mf k hk,
    ?_, ?_, ?_, linearRanges_cover n hn mf hmf, ?_, linearRanges_widths n hn mf hmf⟩
  · intro fft
    rw [Binning.bin]
    have h2 : 2 * mf / 2 = mf := by ring
    rw [h2, List.map_map]
    have hcomp : Prod.fst ∘ aggregate fft ((fft.length : ℚ) / mf) = id := by
      funext r
      rfl
    rw [hcomp, List.map_id]
  · rw [contigB_iff]
    intro k a b ha hb
    have hk1 : k + 1 < n := by
      by_contra hk1
      rw [linearRanges, List.getElem?_map, List.getElem?_eq_none (by
        rw [List.length_range]
        omega)] at hb
      simp at hb
    have hk : k < n := by omega
    rw [linearRanges_getElem? n mf k hk] at ha
    rw [linearRanges_getElem? n mf (k + 1) hk1] at hb
    simp only [Option.some.injEq] at ha hb
    rw [← ha, ← hb]
    push_cast
    ring_nf
  · have h0 : 0 < n := hn
    rw [linearRanges_getElem? n mf 0 h0, Option.map_some']
    congr 1
    show ⌊((0 : ℕ) : ℚ) * (mf / n)⌋₊ = 0
    rw [Nat.cast_zero, zero_mul, Nat.floor_zero]
  · rw [List.getLast?_eq_getElem?, linearRanges_length n mf,
      linearRanges_getElem? n mf (n - 1) (by omega)]
    rw [Option.map_some']
    congr 1
    have hc : ((n - 1 : ℕ) : ℚ) + 1 = (n : ℚ) := by
      rw [Nat.cast_sub hn]
      push_cast
      ring
    rw [hc, hnw]
  · rintro t ⟨r, hr, hrt, htr⟩
    obtain ⟨k, hk, rfl⟩ := (linearRanges_mem n mf r).mp hr
    have hle : ((k : ℚ) + 1) * (mf / n) ≤ mf := by
      have hk1 : ((k : ℚ) + 1) ≤ (n : ℚ) := by exact_mod_cast Nat.succ_le_of_lt hk
      have hnpos : (0 : ℚ) < (n : ℚ) := by exact_mod_cast hn
      have hwpos : (0 : ℚ) < mf / n := div_pos hmf hnpos
      calc ((k : ℚ) + 1) * (mf / n) ≤ (n : ℚ) * (mf / n) := by nlinarith
      _ = mf := hnw
    exact lt_of_lt_of_le htr (Nat.floor_le_floor hle)

/-- Counterexample to C1 as stated: with `n = 1` and `sample_rate = 999`
(`max_freq = 999/2`), the single produced range is `0..499`, whose width `499`
is not `max_freq / n = 999/2`, and which misses the Hertz value `1997/4 ∈
[0, 999/2)`, so the ranges do not cover `[0, max_freq)`. -/
theorem C1_counterexample :
    linearRanges 1 (999 / 2) = [⟨0, 499⟩] ∧
    ((499 : ℚ) - 0 ≠ 999 / 2 / 1) ∧
    ((0 : ℚ) ≤ 1997 / 4 ∧ (1997 / 4 : ℚ) < 999 / 2) ∧
    (∀ r ∈ linearRanges 1 (999 / 2), ¬((r.start : ℚ) ≤ 1997 / 4 ∧ (1997 / 4 : ℚ) < r.stop)) := by
  have h1 : linearRanges 1 (999 / 2) = [⟨0, 499⟩] := by
    have hr1 : List.range 1 = [0] := rfl
    rw [linearRanges, hr1, List.map_cons, List.map_nil, NRange.scale]
    congr 2
    · exact natFloor_eval' _ 0 (by norm_num) (by norm_num)
    · exact natFloor_eval' _ 499 (by norm_num) (by norm_num)
  refine ⟨h1, by norm_num, ⟨by norm_num, by norm_num⟩, ?_⟩
  rw [h1]
  intro r hr
  rw [List.mem_singleton] at hr
  subst hr
  norm_num

/-- Witness for C1 at `n = 2`, `max_freq = 5`. -/
theorem C1_linear_ranges_witness :
    (1 ≤ 2 ∧ (0 : ℚ) < 5) ∧ (linearRanges 2 5).length = 2 :=
  ⟨⟨by norm_num, by norm_num⟩, (C1_linear_ranges 2 (by norm_num) 5 (by norm_num)).1⟩

/-! ### Claim C10: scaled index ranges stay inside the spectrum -/

lemma scale_start_le_stop (a b : ℕ) (hab : a ≤ b) (s : ℚ) (hs : 0 ≤ s) :
    ((⟨a, b⟩ : NRange).scale s).start ≤ ((⟨a, b⟩ : NRange).scale s).stop := by
  rw [NRange.scale]
  exact Nat.floor_le_floor (mul_le_mul_of_nonneg_right (by exact_mod_cast hab) hs)

lemma scale_stop_le (a b len : ℕ) (mf : ℚ) (hmf : 0 < mf) (hb : (b : ℚ) ≤ mf) :
    ((⟨a, b⟩ : NRange).scale ((len : ℚ) / mf)).stop ≤ len := by
  rw [NRange.scale]
  calc ⌊(b : ℚ) * ((len : ℚ) / mf)⌋₊
      ≤ ⌊(len : ℚ)⌋₊ := Nat.floor_le_floor (by
        calc (b : ℚ) * ((len : ℚ) / mf) ≤ mf * ((len : ℚ) / mf) :=
          mul_le_mul_of_nonneg_right hb (by positivity)
        _ = (len : ℚ) := by field_simp)
  _ = len := Nat.floor_natCast len

/-- Claim C10 (confirmed): every spectrum-index range obtained by scaling a
Linear Hertz range through `len / max_freq` is well-formed (`start ≤ stop`)
and ends no later than `len`, so the slice `fft[scaled_range]` taken by
`Binning::bin` is in bounds and never panics: on any spectrum of length `len`
the slice has exactly `stop - start` elements. -/
theorem C10_scaled_in_bounds (n len : ℕ) (hn : 1 ≤ n) (sr : ℚ) (hsr : 0 < sr) :
    ∀ r ∈ linearRanges n (sr / 2),
      (r.scale ((len : ℚ) / (sr / 2))).start ≤ (r.scale ((len : ℚ) / (sr / 2))).stop ∧
      (r.scale ((len : ℚ) / (sr / 2))).stop ≤ len ∧
      ∀ fft : List ℂ, fft.length = len →
        (listSlice fft (r.scale ((len : ℚ) / (sr / 2)))).length =
          (r.scale ((len : ℚ) / (sr / 2))).stop - (r.scale ((len : ℚ) / (sr / 2))).start := by
  intro r hr
  obtain ⟨k, hk, rfl⟩ := (linearRanges_mem n (sr / 2) r).mp hr
  have hmf : (0 : ℚ) < sr / 2 := by positivity
  have hnq : (0 : ℚ) < (n : ℚ) := by exact_mod_cast hn
  have hw : (0 : ℚ) < sr / 2 / n := div_pos hmf hnq
  have hab : ⌊(k : ℚ) * (sr / 2 / n)⌋₊ ≤ ⌊((k : ℚ) + 1) * (sr / 2 / n)⌋₊ :=
    Nat.floor_le_floor (by nlinarith)
  have hble : ((⌊((k : ℚ) + 1) * (sr / 2 / n)⌋₊ : ℕ) : ℚ) ≤ sr / 2 := by
    have hkn : ((k : ℚ) + 1) ≤ (n : ℚ) := by exact_mod_cast Nat.succ_le_of_lt hk
    have h1 : ((k : ℚ) + 1) * (sr / 2 / n) ≤ sr / 2 := by
      calc ((k : ℚ) + 1) * (sr / 2 / n) ≤ (n : ℚ) * (sr / 2 / n) := by nlinarith
      _ = sr / 2 := by
        field_simp
        ring
    exact le_trans (Nat.floor_le (by nlinarith)) h1
  have h1 := scale_start_le_stop _ _ hab ((len : ℚ) / (sr / 2)) (by positivity)
  have h2 := scale_stop_le ⌊(k : ℚ) * (sr / 2 / n)⌋₊ _ len (sr / 2) hmf hble
  refine ⟨h1, h2, ?_⟩
  intro fft hlen
  rw [listSlice, List.length_take, List.length_drop, hlen]
  omega

/-- Witness for C10 at `n = 2`, `len = 50`, `sample_rate = 1000`. -/
theorem C10_scaled_in_bounds_witness :
    (1 ≤ 2 ∧ (0 : ℚ) < 1000) ∧
    ∀ r ∈ linearRanges 2 (1000 / 2),
      (r.scale ((50 : ℚ) / (1000 / 2))).stop ≤ 50 :=
  ⟨⟨by norm_num, by norm_num⟩,
    fun r hr => ((C10_scaled_in_bounds 2 50 (by norm_num) 1000 (by norm_num)) r hr).2.1⟩

/-! ### Claim C4: the drain step of the analysis loop -/

/-- Claim C4 (confirmed): with fewer than Window-length samples the drain step
produces no Window and leaves the buffer unchanged; with at least Window-length
samples it takes exactly the most recent Window-length samples (the tail slice
of the buffer) as the Window and leaves the buffer empty. -/
theorem C4_drain_step (buf : List ℚ) (W : ℕ) :
    (buf.length < W → drainStep buf W = (none, buf)) ∧
    (W ≤ buf.length → ∃ w, drainStep buf W = (some w, []) ∧ w.length = W ∧
      buf.take (buf.length - W) ++ w = buf) := by
  constructor
  · intro h
    rw [drainStep, if_neg (by omega)]
  · intro h
    rw [drainStep, if_pos h]
    refine ⟨buf.drop (buf.length - W), rfl, ?_, List.take_append_drop _ _⟩
    rw [List.length_drop]
    omega

/-- Witness for C4 at a concrete buffer. -/
theorem C4_drain_step_witness :
    (([1, 2, 3] : List ℚ).length < 5) ∧ drainStep [1, 2, 3] 5 = (none, [1, 2, 3]) :=
  ⟨by simp, (C4_drain_step [1, 2, 3] 5).1 (by simp)⟩

/-! ### Claim C8: the sample mixer -/

/-- Claim C8 (confirmed): `average` returns `0` on the empty frame and the
exact arithmetic mean (sum divided by count, equivalently the value whose
product with the count is the sum) on non-empty frames; channels `[0, 1]`
yield `1/2`. -/
theorem C8_average_mean :
    average [] = 0 ∧
    (∀ frame : List ℚ, frame ≠ [] →
      average frame = frame.sum / (frame.length : ℚ) ∧
      average frame * (frame.length : ℚ) = frame.sum) ∧
    average [0, 1] = 1 / 2 := by
  refine ⟨by simp [average], fun frame hf => ?_, by norm_num [average]⟩
  have hlen : frame.length ≠ 0 := fun h0 => hf (List.length_eq_zero.mp h0)
  have h1 : average frame = frame.sum / (frame.length : ℚ) := by
    rw [average, if_neg hlen]
  refine ⟨h1, ?_⟩
  rw [h1, div_mul_cancel₀]
  exact_mod_cast hlen

/-- Witness for C8 at a concrete non-empty frame. -/
theorem C8_average_mean_witness :
    (([3, 5] : List ℚ) ≠ []) ∧ average [3, 5] * (([3, 5] : List ℚ).length : ℚ) = ([3, 5] : List ℚ).sum :=
  ⟨by simp, ((C8_average_mean.2.1) [3, 5] (by simp)).2⟩

/-! ### The logarithmic range generator -/

lemma rroundQ_natCast (k : ℕ) : rroundQ (k : ℚ) = (k : ℚ) := by
  rw [rroundQ]
  have h : ⌊(k : ℚ) + 1 / 2⌋ = (k : ℤ) := by
    rw [Int.floor_eq_iff]
    constructor
    · push_cast
      linarith
    · push_cast
      linarith
  rw [h]
  push_cast
  rfl

lemma logBinsAux_of_ge (b M : ℚ) (fuel : ℕ) (c : ℚ) (h : ¬ c < M) :
    logBinsAux b M fuel c = ([], c) := by
  cases fuel with
  | zero => rfl
  | succ fuel => simp only [logBinsAux, if_neg h]

lemma logBinsAuxNat_of_ge (b M : ℕ) (fuel c : ℕ) (h : M ≤ c) :
    logBinsAuxNat b M fuel c = ([], c) := by
  cases fuel with
  | zero => rfl
  | succ fuel => simp only [logBinsAuxNat, if_neg (by omega : ¬ c < M)]

lemma logBinsAux_natCast (b M : ℕ) : ∀ (fuel c : ℕ),
    logBinsAux (b : ℚ) (M : ℚ) fuel (c : ℚ) =
      ((logBinsAuxNat b M fuel c).1, ((logBinsAuxNat b M fuel c).2 : ℚ)) := by
  intro fuel
  induction fuel with
  | zero => intro c; rfl
  | succ fuel ih =>
    intro c
    by_cases hc : c < M
    · have hcq : (c : ℚ) < (M : ℚ) := by exact_mod_cast hc
      simp only [logBinsAux, logBinsAuxNat, if_pos hc, if_pos hcq]
      have hnext : min (rroundQ ((c : ℚ) * (b : ℚ))) (M : ℚ) = ((min (c * b) M : ℕ) : ℚ) := by
        rw [← Nat.cast_mul, rroundQ_natCast, Nat.cast_min]
      rw [hnext, ih (min (c * b) M)]
      simp only [Nat.floor_natCast]
    · have hcq : ¬ (c : ℚ) < (M : ℚ) := by exact_mod_cast hc
      simp only [logBinsAux, logBinsAuxNat, if_neg hc, if_neg hcq]

lemma log_bins_natCast (b M : ℕ) :
    log_bins (M : ℚ) (b : ℚ) = (logBinsAuxNat b M (M + 1) 1).1 := by
  rw [log_bins, Nat.floor_natCast]
  have h := logBinsAux_natCast b M (M + 1) 1
  rw [Nat.cast_one] at h
  rw [h]

lemma contigB_cons (a : NRange) (l : List NRange) (h : ContigB l = true)
    (hh : ∀ bhd, l.head? = some bhd → a.stop = bhd.start) : ContigB (a :: l) = true := by
  cases l with
  | nil => rfl
  | cons b t =>
    rw [ContigB, Bool.and_eq_true, decide_eq_true_eq]
    exact ⟨hh b rfl, h⟩

lemma logBinsAuxNat_spec (b M : ℕ) (hb : 2 ≤ b) : ∀ (fuel c : ℕ), 1 ≤ c →
    M ≤ fuel + c → c < M →
    (logBinsAuxNat b M fuel c).1 ≠ [] ∧
    ((logBinsAuxNat b M fuel c).1.head?.map NRange.start = some c) ∧
    ((logBinsAuxNat b M fuel c).1.getLast?.map NRange.stop = some M) ∧
    ContigB (logBinsAuxNat b M fuel c).1 = true ∧
    (∀ r ∈ (logBinsAuxNat b M fuel c).1, r.start < r.stop) ∧
    (∀ t, c ≤ t → t < M → ∃ r ∈ (logBinsAuxNat b M fuel c).1, r.start ≤ t ∧ t < r.stop) := by
  intro fuel
  induction fuel with
  | zero =>
    intro c hc1 hfc hcM
    exact absurd hcM (by omega)
  | succ fuel ih =>
    intro c hc1 hfc hcM
    have h2 : c * 2 ≤ c * b := Nat.mul_le_mul_left c hb
    simp only [logBinsAuxNat, if_pos hcM]
    by_cases hnM : min (c * b) M < M
    · have h1n : 1 ≤ min (c * b) M := by omega
      have hMn : M ≤ fuel + min (c * b) M := by omega
      obtain ⟨hne, hhead, hlast, hcontig, hwid, hcov⟩ := ih (min (c * b) M) h1n hMn hnM
      obtain ⟨r0, rtl, hr0⟩ := List.exists_cons_of_ne_nil hne
      refine ⟨by simp, by simp, ?_, ?_, ?_, ?_⟩
      · rw [hr0, List.getLast?_cons_cons]
        rw [hr0] at hlast
        exact hlast
      · apply contigB_cons _ _ hcontig
        intro bhd hbhd
        rw [hr0, List.head?_cons, Option.some.injEq] at hbhd
        subst hbhd
        rw [hr0] at hhead
        simp only [List.head?_cons, Option.map_some', Option.some.injEq] at hhead
        exact hhead.symm
      · intro r hr
        rcases List.mem_cons.mp hr with rfl | hr
        · show c < min (c * b) M
          omega
        · exact hwid r hr
      · intro t hct htM
        by_cases htn : t < min (c * b) M
        · exact ⟨⟨c, min (c * b) M⟩, List.mem_cons_self _ _, hct, htn⟩
        · obtain ⟨r, hrmem, hrs, hrt⟩ := hcov t (by omega) htM
          exact ⟨r, List.mem_cons_of_mem _ hrmem, hrs, hrt⟩
    · have hnext : min (c * b) M = M := by omega
      rw [hnext, logBinsAuxNat_of_ge b M fuel M (le_refl M)]
      refine ⟨by simp, by simp, by simp, rfl, ?_, ?_⟩
      · intro r hr
        rcases List.mem_singleton.mp hr with rfl
        show c < M
        exact hcM
      · intro t hct htM
        exact ⟨⟨c, M⟩, List.mem_singleton.mpr rfl, hct, htM⟩

lemma logBinsAuxNat_len_mono_c (b M : ℕ) (hb : 1 ≤ b) : ∀ (fuel c c' : ℕ), 1 ≤ c →
    c ≤ c' →
    (logBinsAuxNat b M fuel c').1.length ≤ (logBinsAuxNat b M fuel c).1.length := by
  intro fuel
  induction fuel with
  | zero => intro c c' _ _; simp [logBinsAuxNat]
  | succ fuel ih =>
    intro c c' hc1 hcc
    by_cases hc' : c' < M
    · have hc : c < M := by omega
      simp only [logBinsAuxNat, if_pos hc, if_pos hc']
      have hmul : c * b ≤ c' * b := Nat.mul_le_mul_right b hcc
      have hone : c * 1 ≤ c * b := Nat.mul_le_mul_left c hb
      have hminle : min (c * b) M ≤ min (c' * b) M := by omega
      have h1n : 1 ≤ min (c * b) M := by omega
      simpa using ih (min (c * b) M) (min (c' * b) M) h1n hminle
    · rw [logBinsAuxNat_of_ge b M _ c' (by omega)]
      simp

lemma logBinsAuxNat_len_anti_b (M : ℕ) : ∀ (fuel c b b' : ℕ), 1 ≤ c → 1 ≤ b → b ≤ b' →
    (logBinsAuxNat b' M fuel c).1.length ≤ (logBinsAuxNat b M fuel c).1.length := by
  intro fuel
  induction fuel with
  | zero => intro c b b' _ _ _; simp [logBinsAuxNat]
  | succ fuel ih =>
    intro c b b' hc hbpos hbb
    by_cases hcM : c < M
    · simp only [logBinsAuxNat, if_pos hcM]
      have hmul : c * b ≤ c * b' := Nat.mul_le_mul_left c hbb
      have hone : c * 1 ≤ c * b := Nat.mul_le_mul_left c hbpos
      have hminle : min (c * b) M ≤ min (c * b') M := by omega
      have h1n : 1 ≤ min (c * b) M := by omega
      have step1 := logBinsAuxNat_len_mono_c b' M (le_trans hbpos hbb) fuel
        (min (c * b) M) (min (c * b') M) h1n hminle
      have step2 := ih (min (c * b) M) b b' h1n hbpos hbb
      simpa using le_trans step1 step2
    · rw [logBinsAuxNat_of_ge b' M _ c (by omega), logBinsAuxNat_of_ge b M _ c (by omega)]

/-- Claim C3 (corrected): for integer `base ≥ 2` and *integer* `max_freq ≥ 2`,
`log_bins` produces a finite nonempty sequence of strictly increasing,
contiguous ranges starting exactly at `1` Hz and ending exactly at `max_freq`,
and the number of ranges does not increase as the base increases (it need not
strictly decrease — see the counterexample, which also shows that for
non-integer `max_freq` the last range ends at `⌊max_freq⌋` instead of
`max_freq` and can be empty rather than strictly increasing). -/
theorem C3_log_bins (b b' M : ℕ) (hb : 2 ≤ b) (hbb : b ≤ b') (hM : 2 ≤ M) :
    log_bins (M : ℚ) (b : ℚ) ≠ [] ∧
    (log_bins (M : ℚ) (b : ℚ)).head?.map NRange.start = some 1 ∧
    (log_bins (M : ℚ) (b : ℚ)).getLast?.map NRange.stop = some M ∧
    ContigB (log_bins (M : ℚ) (b : ℚ)) = true ∧
    (∀ r ∈ log_bins (M : ℚ) (b : ℚ), r.start < r.stop) ∧
    (log_bins (M : ℚ) (b' : ℚ)).length ≤ (log_bins (M : ℚ) (b : ℚ)).length := by
  rw [log_bins_natCast b M, log_bins_natCast b' M]
  obtain ⟨h1, h2, h3, h4, h5, _⟩ :=
    logBinsAuxNat_spec b M hb (M + 1) 1 (le_refl 1) (by omega) (by omega)
  exact ⟨h1, h2, h3, h4, h5,
    logBinsAuxNat_len_anti_b M (M + 1) 1 b b' (le_refl 1) (by omega) hbb⟩

/-- Witness for C3 at `base = 2`, `base' = 3`, `max_freq = 4`. -/
theorem C3_log_bins_witness :
    (2 ≤ 2 ∧ 2 ≤ 3 ∧ 2 ≤ 4) ∧ log_bins ((4 : ℕ) : ℚ) ((2 : ℕ) : ℚ) ≠ [] :=
  ⟨⟨le_refl 2, by norm_num, by norm_num⟩,
    (C3_log_bins 2 3 4 (le_refl 2) (by norm_num) (by norm_num)).1⟩

/-- Counterexample to C3 as stated: for the non-integer `max_freq = 3/2 > 1`
with `base = 2` the generator yields the single empty range `1..1`, which is
not strictly increasing and whose end `1` is not `max_freq = 3/2`; and at
`max_freq = 4` the bases `2 < 3` yield the same number of ranges, so the count
does not strictly decrease as the base increases. -/
theorem C3_counterexample :
    log_bins (3 / 2 : ℚ) 2 = [⟨1, 1⟩] ∧
    (¬ (1 : ℕ) < 1) ∧
    ((1 : ℚ) ≠ 3 / 2) ∧
    (log_bins ((4 : ℕ) : ℚ) ((2 : ℕ) : ℚ)).length = 2 ∧
    (log_bins ((4 : ℕ) : ℚ) ((3 : ℕ) : ℚ)).length = 2 := by
  have hf : ⌊(3 / 2 : ℚ)⌋₊ = 1 := natFloor_eval' _ 1 (by norm_num) (by norm_num)
  have hlt : (1 : ℚ) < 3 / 2 := by norm_num
  have hrr : rroundQ ((1 : ℚ) * 2) = 2 := by
    rw [rroundQ]
    norm_num
  have hmin : min (rroundQ ((1 : ℚ) * 2)) (3 / 2 : ℚ) = 3 / 2 := by
    rw [hrr]
    exact min_eq_right (by norm_num)
  have hlast : logBinsAux 2 (3 / 2 : ℚ) 1 (3 / 2) = ([], 3 / 2) :=
    logBinsAux_of_ge _ _ _ _ (by norm_num)
  have h1 : log_bins (3 / 2 : ℚ) 2 = [⟨1, 1⟩] := by
    rw [log_bins, hf]
    simp only [logBinsAux]
    rw [if_pos hlt, hmin, if_neg (lt_irrefl (3 / 2 : ℚ))]
    simp [Nat.floor_one, hf]
  refine ⟨h1, by omega, by norm_num, ?_, ?_⟩
  · rw [log_bins_natCast]
    rfl
  · rw [log_bins_natCast]
    rfl

/-! ### Claim C9: termination of the log_bins loop -/

lemma rround_step_gt (b : ℚ) (hb : 2 ≤ b) (c : ℚ) (hc : 1 ≤ c) : c < rroundQ (c * b) := by
  rw [rroundQ]
  have h1 : c * b + 1 / 2 - 1 < (⌊c * b + 1 / 2⌋ : ℚ) := Int.sub_one_lt_floor _
  have h2 : c * 2 ≤ c * b := mul_le_mul_of_nonneg_left hb (by linarith)
  linarith

lemma rround_floor_jump (b : ℚ) (hb : 2 ≤ b) (c : ℚ) (hc : 1 ≤ c) :
    ⌊c⌋₊ + 1 ≤ ⌊rroundQ (c * b)⌋₊ := by
  have h2 : c * 2 ≤ c * b := mul_le_mul_of_nonneg_left hb (by linarith)
  have h3 : (⌊c⌋ : ℚ) ≤ c := Int.floor_le c
  have hz : (⌊c⌋ : ℤ) + 1 ≤ ⌊c * b + 1 / 2⌋ := by
    apply Int.le_floor.mpr
    push_cast
    linarith
  have hz1 : (1 : ℤ) ≤ ⌊c⌋ := Int.le_floor.mpr (by exact_mod_cast hc)
  rw [rroundQ, ← Int.floor_toNat, ← Int.floor_toNat, Int.floor_intCast]
  omega

lemma logBinsAux_final (b : ℚ) (hb : 2 ≤ b) (M : ℚ) : ∀ (fuel : ℕ) (c : ℚ), 1 ≤ c →
    ⌊M⌋₊ < fuel + ⌊c⌋₊ → M ≤ (logBinsAux b M fuel c).2 := by
  intro fuel
  induction fuel with
  | zero =>
    intro c hc hfuel
    by_cases hcM : c < M
    · exfalso
      have hfl : ⌊c⌋₊ ≤ ⌊M⌋₊ := Nat.floor_le_floor (le_of_lt hcM)
      omega
    · exact not_lt.mp hcM
  | succ fuel ih =>
    intro c hc hfuel
    by_cases hcM : c < M
    · simp only [logBinsAux, if_pos hcM]
      rcases le_or_lt M (rroundQ (c * b)) with hMr | hrM
      · rw [min_eq_right hMr, logBinsAux_of_ge b M fuel M (lt_irrefl M)]
      · rw [min_eq_left (le_of_lt hrM)]
        apply ih (rroundQ (c * b))
        · exact le_of_lt (lt_of_le_of_lt hc (rround_step_gt b hb c hc))
        · have := rround_floor_jump b hb c hc
          omega
    · rw [logBinsAux_of_ge b M _ c hcM]
      exact not_lt.mp hcM

/-- Claim C9 (confirmed): for every integer `base ≥ 2` and every (finite)
rational `max_freq`, the `log_bins` loop terminates: once `current_freq ≥ 1`
the rounded next boundary `round(current_freq · base)` strictly exceeds
`current_freq`, and the loop starting at `1` with fuel `⌊max_freq⌋ + 1`
(the fuel `log_bins` runs with) drives `current_freq` up to at least
`max_freq`, at which point the loop guard fails. -/
theorem C9_log_terminates (b : ℕ) (hb : 2 ≤ b) (M : ℚ) :
    (∀ c : ℚ, 1 ≤ c → c < rroundQ (c * (b : ℚ))) ∧
    log_bins M (b : ℚ) = (logBinsAux (b : ℚ) M (⌊M⌋₊ + 1) 1).1 ∧
    M ≤ (logBinsAux (b : ℚ) M (⌊M⌋₊ + 1) 1).2 := by
  have hbq : (2 : ℚ) ≤ (b : ℚ) := by exact_mod_cast hb
  refine ⟨fun c hc => rround_step_gt (b : ℚ) hbq c hc, rfl, ?_⟩
  apply logBinsAux_final (b : ℚ) hbq M (⌊M⌋₊ + 1) 1 le_rfl
  rw [Nat.floor_one]
  omega

/-- Witness for C9 at `base = 2`, `max_freq = 8`. -/
theorem C9_log_terminates_witness :
    (2 ≤ 2) ∧ (8 : ℚ) ≤ (logBinsAux ((2 : ℕ) : ℚ) 8 (⌊(8 : ℚ)⌋₊ + 1) 1).2 :=
  ⟨le_refl 2, (C9_log_terminates 2 (le_refl 2) 8).2.2⟩

/-! ### Claim C2: complex sum then norm -/

lemma bin_linear_eq (n : ℕ) (fft : List ℂ) (sr : ℚ) :
    Binning.bin (Binning.linear n) fft sr =
      (linearRanges n (sr / 2)).map (aggregate fft ((fft.length : ℚ) / (sr / 2))) := rfl

lemma bin_log_eq (lg : ℕ) (fft : List ℂ) (sr : ℚ) :
    Binning.bin (Binning.logarithmic lg) fft sr =
      (log_bins (sr / 2) (lg : ℚ)).map (aggregate fft ((fft.length : ℚ) / (sr / 2))) := rfl

lemma bin_ranges_eq (rs : List NRange) (fft : List ℂ) (sr : ℚ) :
    Binning.bin (Binning.ranges rs) fft sr =
      rs.map (aggregate fft ((fft.length : ℚ) / (sr / 2))) := rfl

lemma binSumOfNorms_linear_eq (n : ℕ) (fft : List ℂ) (sr : ℚ) :
    binSumOfNorms (Binning.linear n) fft sr =
      (linearRanges n (sr / 2)).map (fun range =>
        (range, ((listSlice fft (range.scale ((fft.length : ℚ) / (sr / 2)))).map
          Complex.abs).sum)) := rfl

lemma two_elem_ranges : linearRanges 1 ((4 : ℚ) / 2) = [⟨0, 2⟩] := by
  have hr1 : List.range 1 = [0] := rfl
  rw [linearRanges, hr1, List.map_cons, List.map_nil, NRange.scale]
  congr 2
  · exact natFloor_eval' _ 0 (by norm_num) (by norm_num)
  · exact natFloor_eval' _ 2 (by push_cast; norm_num) (by push_cast; norm_num)

lemma two_elem_scale (fft : List ℂ) (hlen : fft.length = 2) :
    (⟨0, 2⟩ : NRange).scale ((fft.length : ℚ) / ((4 : ℚ) / 2)) = ⟨0, 2⟩ := by
  rw [NRange.scale, hlen]
  congr 1
  · exact natFloor_eval' _ 0 (by push_cast; norm_num) (by push_cast; norm_num)
  · exact natFloor_eval' _ 2 (by push_cast; norm_num) (by push_cast; norm_num)

/-- Claim C2 (confirmed): the aggregate of every Linear bin is the norm of the
complex sum of the spectrum values in the scaled index range, and on the
two-component opposite-phase spectrum `[1, -1]` (one bin covering both
entries) the norm-of-sum aggregate `|1 + (-1)| = 0` is strictly smaller than
the sum-of-norms aggregate `|1| + |-1| = 2`. -/
theorem C2_complex_sum_norm :
    (∀ (n : ℕ) (fft : List ℂ) (sr : ℚ),
      Binning.bin (Binning.linear n) fft sr =
        (linearRanges n (sr / 2)).map (fun range =>
          (range, Complex.abs (listSlice fft (range.scale ((fft.length : ℚ) / (sr / 2)))).sum))) ∧
    Binning.bin (Binning.linear 1) [1, -1] 4 =
      [(⟨0, 2⟩, Complex.abs ((1 : ℂ) + (-1 : ℂ)))] ∧
    binSumOfNorms (Binning.linear 1) [1, -1] 4 =
      [(⟨0, 2⟩, Complex.abs (1 : ℂ) + Complex.abs (-1 : ℂ))] ∧
    Complex.abs ((1 : ℂ) + (-1 : ℂ)) < Complex.abs (1 : ℂ) + Complex.abs (-1 : ℂ) := by
  have hlen : ([1, -1] : List ℂ).length = 2 := rfl
  have hslice : listSlice ([1, -1] : List ℂ) ⟨0, 2⟩ = ([1, -1] : List ℂ) := rfl
  refine ⟨fun n fft sr => rfl, ?_, ?_, ?_⟩
  · rw [bin_linear_eq, two_elem_ranges, List.map_cons, List.map_nil, aggregate,
      two_elem_scale _ hlen, hslice]
    simp
  · rw [binSumOfNorms_linear_eq]
    simp only [two_elem_ranges, List.map_cons, List.map_nil]
    rw [two_elem_scale _ hlen, hslice]
    simp
  · have hz : ((1 : ℂ) + (-1 : ℂ)) = 0 := by ring
    rw [hz, map_zero]
    have h1 : Complex.abs (1 : ℂ) = 1 := map_one Complex.abs
    have hneg : Complex.abs (-1 : ℂ) = 1 := by
      rw [show (-1 : ℂ) = -(1 : ℂ) from rfl, map_neg_eq_map, h1]
    rw [h1, hneg]
    norm_num

/-! ### The painter -/

lemma paintLed_none (bins : List (NRange × ℝ)) (sr : ℚ) :
    paintLed bins sr none = some (Color.new 0 0 0) := rfl

lemma paintLed_some (bins : List (NRange × ℝ)) (sr : ℚ) (x y : ℚ) :
    paintLed bins sr (some (x, y)) =
      (bins.find? (fun b => b.1.containsN ⌊x * sr / 2⌋₊)).map
        (fun bin => if 1 < bin.2 then Color.new 255 0 0 else Color.new 0 0 0) := rfl

lemma paint_cons (led : Option (ℚ × ℚ)) (rest : List (Option (ℚ × ℚ)))
    (bins : List (NRange × ℝ)) (sr : ℚ) :
    paint (led :: rest) bins sr =
      (paintLed bins sr led).bind (fun c =>
        (paint rest bins sr).bind (fun cs => some (c :: cs))) := rfl

lemma paint_some (leds : List (Option (ℚ × ℚ))) (bins : List (NRange × ℝ)) (sr : ℚ)
    (frame : List Color) (h : paint leds bins sr = some frame) :
    frame.length = leds.length ∧
    ∀ (i : ℕ) (hi : i < leds.length) (hi' : i < frame.length),
      paintLed bins sr (leds.get ⟨i, hi⟩) = some (frame.get ⟨i, hi'⟩) := by
  induction leds generalizing frame with
  | nil =>
    simp only [paint, Option.some.injEq] at h
    subst h
    exact ⟨rfl, fun i hi => absurd hi (by simp)⟩
  | cons led rest ih =>
    rw [paint_cons] at h
    cases hcl : paintLed bins sr led with
    | none => rw [hcl] at h; simp at h
    | some c =>
      rw [hcl] at h
      cases hcr : paint rest bins sr with
      | none => rw [hcr] at h; simp at h
      | some cs =>
        rw [hcr] at h
        simp only [Option.some_bind, Option.some.injEq] at h
        subst h
        obtain ⟨hlen, hidx⟩ := ih cs hcr
        refine ⟨by simp [hlen], ?_⟩
        intro i hi hi'
        cases i with
        | zero => exact hcl
        | succ i =>
          exact hidx i (Nat.lt_of_succ_lt_succ (by simpa using hi))
            (Nat.lt_of_succ_lt_succ (by simpa using hi'))

lemma paint_all_black (leds : List (Option (ℚ × ℚ))) (bins : List (NRange × ℝ)) (sr : ℚ)
    (frame : List Color) (hzero : ∀ p ∈ bins, ¬ (1 : ℝ) < p.2)
    (h : paint leds bins sr = some frame) : ∀ c ∈ frame, c = Color.new 0 0 0 := by
  induction leds generalizing frame with
  | nil =>
    simp only [paint, Option.some.injEq] at h
    subst h
    simp
  | cons led rest ih =>
    rw [paint_cons] at h
    cases hcl : paintLed bins sr led with
    | none => rw [hcl] at h; simp at h
    | some c =>
      rw [hcl] at h
      cases hcr : paint rest bins sr with
      | none => rw [hcr] at h; simp at h
      | some cs =>
        rw [hcr] at h
        simp only [Option.some_bind, Option.some.injEq] at h
        subst h
        intro d hd
        rcases List.mem_cons.mp hd with rfl | hd
        · cases led with
          | none =>
            rw [paintLed_none, Option.some.injEq] at hcl
            exact hcl.symm
          | some xy =>
            obtain ⟨x, y⟩ := xy
            rw [paintLed_some] at hcl
            cases hf : bins.find? (fun b => b.1.containsN ⌊x * sr / 2⌋₊) with
            | none => rw [hf] at hcl; simp at hcl
            | some bin =>
              rw [hf] at hcl
              simp only [Option.map_some', Option.some.injEq] at hcl
              have hbin : bin ∈ bins := List.mem_of_find?_eq_some hf
              rw [if_neg (hzero bin hbin)] at hcl
              exact hcl.symm
        · exact ih cs hcr d hd

/-! ### Claim C5: bin-lookup coverage in paint -/

/-- Claim C5 (corrected): the bin lookup in `paint` succeeds for a placed LED
exactly when its target frequency `⌊x · max_freq⌋` lies in the region the
strategy covers — for Linear bins the integer frequencies below `⌊max_freq⌋`,
for Logarithmic bins (integer `max_freq = M ≥ 2`) the integer frequencies in
`[1, M)`.  It is *not* unreachable for every `x ∈ [0, 1]`: at `x = 1` the
target equals `max_freq`, no bin contains it, and the `unwrap` panics (see the
counterexample; for Logarithmic bins `x = 0` misses as well). -/
theorem C5_lookup_coverage :
    (∀ (n : ℕ), 1 ≤ n → ∀ (sr : ℚ), 0 < sr → ∀ (fft : List ℂ) (x y : ℚ),
      ⌊x * sr / 2⌋₊ < ⌊sr / 2⌋₊ →
      (paintLed (Binning.bin (Binning.linear n) fft sr) sr (some (x, y))).isSome = true) ∧
    (∀ (b M : ℕ), 2 ≤ b → 2 ≤ M → ∀ (fft : List ℂ) (x y : ℚ),
      1 ≤ ⌊x * (2 * (M : ℚ)) / 2⌋₊ → ⌊x * (2 * (M : ℚ)) / 2⌋₊ < M →
      (paintLed (Binning.bin (Binning.logarithmic b) fft (2 * (M : ℚ))) (2 * (M : ℚ))
        (some (x, y))).isSome = true) := by
  constructor
  · intro n hn sr hsr fft x y ht
    rw [paintLed_some, Option.isSome_map', List.find?_isSome]
    obtain ⟨r, hrmem, hrs, hrt⟩ := linearRanges_cover n hn (sr / 2) (by positivity) _ ht
    refine ⟨aggregate fft ((fft.length : ℚ) / (sr / 2)) r, ?_, ?_⟩
    · rw [bin_linear_eq]
      exact List.mem_map_of_mem _ hrmem
    · show r.containsN _ = true
      rw [NRange.containsN, Bool.and_eq_true, decide_eq_true_eq, decide_eq_true_eq]
      exact ⟨hrs, hrt⟩
  · intro b M hb hM fft x y h1 htM
    have hhalf : (2 * (M : ℚ)) / 2 = (M : ℚ) := by ring
    rw [paintLed_some, Option.isSome_map', List.find?_isSome]
    obtain ⟨_, _, _, _, _, hcov⟩ :=
      logBinsAuxNat_spec b M hb (M + 1) 1 le_rfl (by omega) (by omega)
    obtain ⟨r, hrmem, hrs, hrt⟩ := hcov ⌊x * (2 * (M : ℚ)) / 2⌋₊ h1 htM
    refine ⟨aggregate fft ((fft.length : ℚ) / (M : ℚ)) r, ?_, ?_⟩
    · rw [bin_log_eq, hhalf, log_bins_natCast]
      exact List.mem_map_of_mem _ hrmem
    · show r.containsN _ = true
      rw [NRange.containsN, Bool.and_eq_true, decide_eq_true_eq, decide_eq_true_eq]
      exact ⟨hrs, hrt⟩

/-- Counterexample to C5 as stated: the placed LED at `x = 1 ∈ [0, 1]` with
`sample_rate = 4` and `Linear(1)` bins maps to target frequency
`⌊1 · max_freq⌋ = 2`, which no bin contains (the single bin is `0..2`), so
the lookup misses and `paint` hits the panic branch (modelled as `none`). -/
theorem C5_counterexample :
    paint [some (1, 1)] (Binning.bin (Binning.linear 1) ([0, 0] : List ℂ) 4) 4 = none := by
  have hlen : ([0, 0] : List ℂ).length = 2 := rfl
  have htarget : ⌊(1 : ℚ) * 4 / 2⌋₊ = 2 := natFloor_eval' _ 2 (by norm_num) (by norm_num)
  rw [paint_cons, paintLed_some, bin_linear_eq, two_elem_ranges, htarget]
  rw [List.map_cons, List.map_nil, List.find?]
  have hcontains : (aggregate ([0, 0] : List ℂ)
      ((([0, 0] : List ℂ).length : ℚ) / (4 / 2)) ⟨0, 2⟩).1.containsN 2 = false := rfl
  rw [hcontains]
  rfl

/-- Witness for C5 (Linear part) at `n = 1`, `sample_rate = 4`, `x = 1/2`. -/
theorem C5_lookup_coverage_witness :
    (1 ≤ 1 ∧ (0 : ℚ) < 4 ∧ ⌊(1 / 2 : ℚ) * 4 / 2⌋₊ < ⌊(4 : ℚ) / 2⌋₊) ∧
    (paintLed (Binning.bin (Binning.linear 1) ([0, 0] : List ℂ) 4) 4
      (some (1 / 2, 1))).isSome = true := by
  have h1 : ⌊(1 / 2 : ℚ) * 4 / 2⌋₊ = 1 := natFloor_eval' _ 1 (by norm_num) (by norm_num)
  have h2 : ⌊(4 : ℚ) / 2⌋₊ = 2 := natFloor_eval' _ 2 (by norm_num) (by norm_num)
  have hlt : ⌊(1 / 2 : ℚ) * 4 / 2⌋₊ < ⌊(4 : ℚ) / 2⌋₊ := by omega
  exact ⟨⟨le_refl 1, by norm_num, hlt⟩,
    C5_lookup_coverage.1 1 (le_refl 1) 4 (by norm_num) [0, 0] (1 / 2) 1 hlt⟩

/-! ### Claim C6: the frame produced by paint -/

/-- Claim C6 (confirmed): when `paint` succeeds it returns exactly one color
per LED slot in configuration order; an unplaced slot is black `(0,0,0)`, and
a placed slot at `x` takes the *first* bin whose range contains
`⌊x · sample_rate / 2⌋` — red `(255,0,0)` if that bin's magnitude exceeds
`1.0`, black otherwise. -/
theorem C6_paint_frame (leds : List (Option (ℚ × ℚ))) (bins : List (NRange × ℝ)) (sr : ℚ)
    (frame : List Color) (h : paint leds bins sr = some frame) :
    frame.length = leds.length ∧
    ∀ (i : ℕ) (hi : i < leds.length) (hi' : i < frame.length),
      (leds.get ⟨i, hi⟩ = none → frame.get ⟨i, hi'⟩ = Color.new 0 0 0) ∧
      (∀ x y, leds.get ⟨i, hi⟩ = some (x, y) →
        ∃ pre bin post, bins = pre ++ bin :: post ∧
          bin.1.containsN ⌊x * sr / 2⌋₊ = true ∧
          (∀ b' ∈ pre, b'.1.containsN ⌊x * sr / 2⌋₊ = false) ∧
          frame.get ⟨i, hi'⟩ =
            (if 1 < bin.2 then Color.new 255 0 0 else Color.new 0 0 0)) := by
  obtain ⟨hlen, hidx⟩ := paint_some leds bins sr frame h
  refine ⟨hlen, ?_⟩
  intro i hi hi'
  constructor
  · intro hnone
    have hpl := hidx i hi hi'
    rw [hnone, paintLed_none, Option.some.injEq] at hpl
    exact hpl.symm
  · intro x y hsome
    have hpl := hidx i hi hi'
    rw [hsome, paintLed_some] at hpl
    cases hf : bins.find? (fun b => b.1.containsN ⌊x * sr / 2⌋₊) with
    | none => rw [hf] at hpl; simp at hpl
    | some bin =>
      rw [hf] at hpl
      simp only [Option.map_some', Option.some.injEq] at hpl
      obtain ⟨pre, post, hsplit, hp, hpre⟩ := find?_eq_some_split _ bins bin hf
      exact ⟨pre, bin, post, hsplit, hp, hpre, hpl.symm⟩

/-- Witness for C6: an unplaced slot and a placed slot whose bin magnitude `2`
exceeds the threshold, painted black and red respectively. -/
theorem C6_paint_frame_witness :
    paint [none, some (0, 0)] [(⟨0, 2⟩, (2 : ℝ))] 4 =
      some [Color.new 0 0 0, Color.new 255 0 0] ∧
    ([Color.new 0 0 0, Color.new 255 0 0] : List Color).length =
      ([none, some (0, 0)] : List (Option (ℚ × ℚ))).length := by
  have h0 : ⌊(0 : ℚ) * 4 / 2⌋₊ = 0 := by norm_num
  have hpf : paint [none, some (0, 0)] [(⟨0, 2⟩, (2 : ℝ))] 4 =
      some [Color.new 0 0 0, Color.new 255 0 0] := by
    rw [paint_cons, paintLed_none, Option.some_bind, paint_cons, paintLed_some, h0]
    rw [List.find?_cons_of_pos _ (by rfl)]
    rw [Option.map_some', if_pos (by norm_num : (1 : ℝ) < 2)]
    rfl
  exact ⟨hpf, (C6_paint_frame _ _ _ _ hpf).1⟩

/-! ### Claim C7: an all-zero window paints an all-black frame -/

lemma getD_replicate_zero (n j : ℕ) : (List.replicate n (0 : ℂ)).getD j 0 = 0 := by
  induction n generalizing j with
  | zero => cases j <;> rfl
  | succ n ih =>
    cases j with
    | zero => rfl
    | succ j => exact ih j

lemma calculate_fft_zero (n : ℕ) :
    calculate_fft (List.replicate n 0) n = List.replicate (n / 2) 0 := by
  rw [calculate_fft]
  have hbuf : (List.replicate n (0 : ℚ)).map (fun (sample : ℚ) => ((sample : ℝ) : ℂ)) =
      List.replicate n (0 : ℂ) := by
    rw [List.map_replicate]
    norm_num
  rw [hbuf]
  have htrans : (List.range (List.replicate n (0 : ℂ)).length).map (fun k =>
      ((List.range (List.replicate n (0 : ℂ)).length).map (fun j =>
        (List.replicate n (0 : ℂ)).getD j 0 *
          Complex.exp (-2 * Real.pi * Complex.I * ((j * k : ℕ) : ℂ) /
            ((List.replicate n (0 : ℂ)).length : ℂ)))).sum) =
      List.replicate n (0 : ℂ) := by
    rw [List.length_replicate]
    rw [List.eq_replicate_iff]
    refine ⟨by simp, ?_⟩
    intro z hz
    obtain ⟨k, _, rfl⟩ := List.mem_map.mp hz
    apply List.sum_eq_zero
    intro w hw
    obtain ⟨j, _, rfl⟩ := List.mem_map.mp hw
    rw [getD_replicate_zero, zero_mul]
  rw [htrans, List.take_replicate, Nat.min_eq_left (Nat.div_le_self n 2)]

lemma aggregate_zero (fft : List ℂ) (hz : ∀ z ∈ fft, z = 0) (s : ℚ) (r : NRange) :
    (aggregate fft s r).2 = 0 := by
  rw [aggregate]
  have hsum : (listSlice fft (r.scale s)).sum = 0 := by
    apply List.sum_eq_zero
    intro x hx
    rw [listSlice] at hx
    exact hz x (List.mem_of_mem_drop (List.mem_of_mem_take hx))
  show Complex.abs (listSlice fft (r.scale s)).sum = 0
  rw [hsum, map_zero]

lemma bin_zero (strat : Binning) (fft : List ℂ) (hz : ∀ z ∈ fft, z = 0) (sr : ℚ) :
    ∀ p ∈ Binning.bin strat fft sr, p.2 = 0 := by
  intro p hp
  cases strat with
  | linear n =>
    rw [bin_linear_eq] at hp
    obtain ⟨r, _, rfl⟩ := List.mem_map.mp hp
    exact aggregate_zero fft hz _ r
  | logarithmic lg =>
    rw [bin_log_eq] at hp
    obtain ⟨r, _, rfl⟩ := List.mem_map.mp hp
    exact aggregate_zero fft hz _ r
  | ranges rs =>
    rw [bin_ranges_eq] at hp
    obtain ⟨r, _, rfl⟩ := List.mem_map.mp hp
    exact aggregate_zero fft hz _ r

/-- Claim C7 (confirmed): an all-zero Window yields an all-zero Spectrum
(`n/2` zero entries), every bin aggregate is `0` for any binning strategy, and
whenever `paint` succeeds on the resulting bins (the bin-coverage
precondition), the Frame is entirely black. -/
theorem C7_zero_window (n : ℕ) (sr : ℚ) (strat : Binning)
    (leds : List (Option (ℚ × ℚ))) (frame : List Color) :
    calculate_fft (List.replicate n 0) n = List.replicate (n / 2) 0 ∧
    (∀ p ∈ Binning.bin strat (calculate_fft (List.replicate n 0) n) sr, p.2 = 0) ∧
    (paint leds (Binning.bin strat (calculate_fft (List.replicate n 0) n) sr) sr =
        some frame →
      ∀ c ∈ frame, c = Color.new 0 0 0) := by
  have hz : ∀ z ∈ calculate_fft (List.replicate n 0) n, z = 0 := by
    rw [calculate_fft_zero]
    intro z hz
    exact List.eq_of_mem_replicate hz
  refine ⟨calculate_fft_zero n, bin_zero strat _ hz sr, ?_⟩
  intro h
  apply paint_all_black leds _ sr frame ?_ h
  intro p hp
  rw [bin_zero strat _ hz sr p hp]
  norm_num

/-- Witness for C7: the trivial zero-length window with a single unplaced LED
paints the all-black one-element frame. -/
theorem C7_zero_window_witness :
    paint [none] (Binning.bin (Binning.linear 1) (calculate_fft (List.replicate 0 0) 0) 4) 4 =
      some [Color.new 0 0 0] ∧
    ∀ c ∈ [Color.new 0 0 0], c = Color.new 0 0 0 :=
  ⟨rfl, (C7_zero_window 0 4 (Binning.linear 1) [none] [Color.new 0 0 0]).2.2 rfl⟩

end Vibes
